import Mathlib

/-!
Shallow embedding of the wordle solver (`main.py`): the evaluator
(`Guess.create_from_word`), the constraint model (`Constraint.is_satisfied`),
the constraint updater (`update_constraints`), the candidate selector
(`get_word_to_guess` with `get_frequency_score`), and the orchestrator
(`simulate` / `Puzzle`).  Letters are Lean `Char`s, words are `List Char`,
Python `float` frequency weights are embedded as exact rationals, and the
fallible methods (`Puzzle.enter_word`, `max` over a possibly-empty list)
return `Except` / `Option`.
-/

namespace WordleSolver

/-- The three colours of the wordle board (`Colour` in main.py). -/
inductive Colour
  | grey
  | yellow
  | green
  deriving DecidableEq, Repr

abbrev Word := List Char

/-- A working character during evaluation: letter plus the optional colour
(`None` before pass 2 resolves it), mirroring `Char(letter, colour)` where
`colour` may temporarily be `None`. -/
abbrev WChar := Char × Option Colour

/-- The hard-coded letter frequencies `CHAR_TO_FREQUENCY`; the Python float
literals are exact decimals, embedded as rationals. -/
def CHAR_TO_FREQUENCY : List (Char × ℚ) :=
  [('a', 960/10000), ('b', 249/10000), ('c', 302/10000), ('d', 368/10000),
   ('e', 1004/10000), ('f', 167/10000), ('g', 251/10000), ('h', 268/10000),
   ('i', 590/10000), ('j', 46/10000), ('k', 236/10000), ('l', 509/10000),
   ('m', 325/10000), ('n', 468/10000), ('o', 702/10000), ('p', 328/10000),
   ('q', 20/10000), ('r', 635/10000), ('s', 985/10000), ('t', 499/10000),
   ('u', 394/10000), ('v', 108/10000), ('w', 152/10000), ('x', 44/10000),
   ('y', 323/10000), ('z', 68/10000)]

/-- Lookup in the frequency table (`CHAR_TO_FREQUENCY[char]`; defaults to 0
outside the alphabet, where Python would raise `KeyError`). -/
def freqOf (c : Char) : ℚ := (CHAR_TO_FREQUENCY.lookup c).getD 0

/-- `ALL_CHARS = set("abcdefghijklmnopqrstuvwxyz")`. -/
def ALL_CHARS : List Char := "abcdefghijklmnopqrstuvwxyz".toList

/-! ### Evaluator: `Guess.create_from_word` -/

/-- Pass 1 colour of one zipped (guess char, solution char) pair:
green on exact match, grey when the char is nowhere in the solution,
undetermined (`none`) otherwise. -/
def colour1 (solution : Word) (p : Char × Char) : WChar :=
  (p.1, if p.1 = p.2 then some Colour.green
        else if p.1 ∈ solution then none
        else some Colour.grey)

/-- Pass 1 of `Guess.create_from_word`: the loop over `zip(word, solution)`. -/
def pass1 (word solution : Word) : List WChar :=
  (word.zip solution).map (colour1 solution)

/-- `num_instances_recognised_so_far`: how many entries of the working list
carry letter `c` with colour green or yellow. -/
def recognisedCount (cs : List WChar) (c : Char) : Nat :=
  (cs.filter fun p =>
      decide (p.1 = c ∧ (p.2 = some Colour.green ∨ p.2 = some Colour.yellow))).length

/-- One iteration of pass 2 at index `i`: if the entry is still undetermined,
colour it yellow when the recognised count is below the count in the
solution, grey otherwise (in-place `char.colour = ...` becomes `List.set`). -/
def resolveAt (solution : Word) (cs : List WChar) (i : Nat) : List WChar :=
  match cs.get? i with
  | some (c, none) =>
      cs.set i
        (c, some (if recognisedCount cs c < solution.count c
                  then Colour.yellow else Colour.grey))
  | _ => cs

/-- `Guess.create_from_word`: pass 1 followed by pass 2 over all indices in
ascending order. -/
def create_from_word (word solution : Word) : List WChar :=
  (List.range (pass1 word solution).length).foldl (resolveAt solution)
    (pass1 word solution)

/-- A fully evaluated guess: each letter with its final colour. -/
structure Guess where
  chars : List (Char × Colour)
  deriving DecidableEq, Repr

/-- Collapse the working list to a `Guess` (after pass 2 no entry is `none`;
the `getD` default is never used on evaluator output). -/
def finalize (cs : List WChar) : Guess :=
  ⟨cs.map fun p => (p.1, p.2.getD Colour.grey)⟩

/-- `Guess.is_correct`: every char is green. -/
def Guess.is_correct (g : Guess) : Bool :=
  g.chars.all fun p => p.2 == Colour.green

/-! ### Puzzle -/

def MAX_NUM_GUESSES : Nat := 6
def WORD_LENGTH : Nat := 5

/-- The distinct `ValueError`s raised by `Puzzle.enter_word`. -/
inductive PuzzleError
  | maxGuessesExceeded
  | wrongWordLength
  | unknownChars
  deriving DecidableEq, Repr

structure Puzzle where
  solution : Word
  guesses : List Guess
  deriving DecidableEq, Repr

/-- `Puzzle.enter_word`: reject when the guess budget is exhausted, when the
word is not `WORD_LENGTH` chars long, or (after lowercasing) when it has
characters outside `ALL_CHARS`; otherwise evaluate it against the solution
and append the resulting guess. -/
def Puzzle.enter_word (p : Puzzle) (word : Word) : Except PuzzleError (Guess × Puzzle) :=
  if MAX_NUM_GUESSES ≤ p.guesses.length then .error .maxGuessesExceeded
  else if word.length ≠ WORD_LENGTH then .error .wrongWordLength
  else
    let w := word.map Char.toLower
    if ¬ (w.all fun c => ALL_CHARS.contains c) then .error .unknownChars
    else
      let g := finalize (create_from_word w p.solution)
      .ok (g, ⟨p.solution, p.guesses ++ [g]⟩)

/-- `Puzzle.won`: the last guess exists and is correct. -/
def Puzzle.won (p : Puzzle) : Bool :=
  match p.guesses.getLast? with
  | none => false
  | some g => g.is_correct

/-- `Puzzle.is_in_progress`: not won and fewer than `MAX_NUM_GUESSES` used. -/
def Puzzle.is_in_progress (p : Puzzle) : Bool :=
  if p.won then false else decide (p.guesses.length < MAX_NUM_GUESSES)

/-! ### Constraint model -/

inductive ConstraintType
  | in_some_position
  | not_in_positions
  deriving DecidableEq, Repr

structure Constraint where
  char : Char
  positions : Finset ℕ
  type : ConstraintType
  deriving DecidableEq

/-- `Constraint.is_satisfied`: whether the word has the char at one of the
positions, direct for `IN_SOME_POSITION` and negated for `NOT_IN_POSITIONS`
(`word[position]` becomes `word.get? position`). -/
def Constraint.is_satisfied (k : Constraint) (word : Word) : Bool :=
  let hit := decide (∃ p ∈ k.positions, word.get? p = some k.char)
  match k.type with
  | .in_some_position => hit
  | .not_in_positions => !hit

/-! ### Candidate selector -/

/-- `get_frequency_score`: sum of frequencies over the distinct characters of
the word (`set(word)` becomes `List.dedup`). -/
def get_frequency_score (word : Word) : ℚ :=
  (word.dedup.map freqOf).sum

/-- Python's `max(words, key=f)`: the first element attaining the maximal
key; `none` on the empty list (where Python raises `ValueError`). -/
def maxByKey (f : Word → ℚ) : List Word → Option Word
  | [] => none
  | w :: ws => some (ws.foldl (fun best x => if f best < f x then x else best) w)

/-- `get_word_to_guess`: filter the corpus to the words satisfying every
constraint, then take the word with the highest frequency score. -/
def get_word_to_guess (words : List Word) (constraints : List Constraint) : Option Word :=
  maxByKey get_frequency_score
    (words.filter fun word => constraints.all fun k => k.is_satisfied word)

/-! ### Constraint updater -/

/-- Whether the letter occurs more than once among the guess's letters
(`Counter(char.letter for char in guess.chars)[char.letter] > 1`). -/
def charIsDuplicate (g : Guess) (c : Char) : Bool :=
  decide (1 < (g.chars.map Prod.fst).count c)

/-- The body of `update_constraints`'s loop for one `(i, char)` of the guess:
green replaces all constraints on the letter by an exact-position one,
yellow appends a somewhere-else and a not-here constraint, grey appends a
not-here constraint for in-guess duplicates and otherwise replaces all
constraints on the letter by a global exclusion. -/
def updateStep (g : Guess) (word_length : ℕ) (cs : List Constraint) :
    ℕ × Char × Colour → List Constraint
  | (i, c, Colour.green) =>
      (cs.filter fun k => decide (k.char ≠ c)) ++
        [⟨c, {i}, ConstraintType.in_some_position⟩]
  | (i, c, Colour.yellow) =>
      cs ++ [⟨c, (Finset.range word_length).erase i, ConstraintType.in_some_position⟩,
             ⟨c, {i}, ConstraintType.not_in_positions⟩]
  | (i, c, Colour.grey) =>
      if charIsDuplicate g c then
        cs ++ [⟨c, {i}, ConstraintType.not_in_positions⟩]
      else
        (cs.filter fun k => decide (k.char ≠ c)) ++
          [⟨c, Finset.range word_length, ConstraintType.not_in_positions⟩]

/-- `update_constraints`: fold the update step over `enumerate(guess.chars)`
starting from (a deep copy of) the input constraints. -/
def update_constraints (constraints : List Constraint) (g : Guess)
    (word_length : ℕ) : List Constraint :=
  g.chars.enum.foldl
    (fun cs p => updateStep g word_length cs (p.1, p.2.1, p.2.2)) constraints

/-! ### Heap model of the updater

Python passes the constraint list by reference and holds `Constraint`
objects behind references, so "never mutates the input" is a statement about
a store.  The store is made explicit: a heap of `Constraint` cells addressed
by allocation order, with the input list a list of references.  The code
performs `deepcopy`, list comprehensions (filters that read each object's
`char`) and `append`s (fresh allocations); it has no operation that writes
to an existing cell, and the model mirrors exactly those operations. -/

abbrev Ref := ℕ

/-- The store of `Constraint` objects, addressed by allocation order. -/
structure ConstraintHeap where
  cells : List Constraint

/-- Dereference (`none` for a dangling reference). -/
def ConstraintHeap.read (h : ConstraintHeap) (r : Ref) : Option Constraint :=
  h.cells.get? r

/-- The values behind a list of references. -/
def readRefs (h : ConstraintHeap) (rs : List Ref) : List Constraint :=
  rs.filterMap h.read

/-- Allocate the given values as fresh cells, returning their references. -/
def ConstraintHeap.allocList (h : ConstraintHeap) (vs : List Constraint) :
    ConstraintHeap × List Ref :=
  (⟨h.cells ++ vs⟩, (List.range vs.length).map (· + h.cells.length))

/-- `deepcopy(constraints)`: copy the referenced objects into fresh cells. -/
def ConstraintHeap.deepcopy (h : ConstraintHeap) (rs : List Ref) :
    ConstraintHeap × List Ref :=
  h.allocList (readRefs h rs)

/-- The update step on the heap: the comprehensions filter the working
references by the `char` read from each referenced object, and each appended
constraint is a fresh allocation. -/
def updateStepH (g : Guess) (L : ℕ) (st : ConstraintHeap × List Ref) :
    ℕ × Char × Colour → ConstraintHeap × List Ref
  | (i, c, Colour.green) =>
      let kept := st.2.filter fun r =>
        decide ((st.1.read r).map Constraint.char ≠ some c)
      let a := st.1.allocList [⟨c, {i}, ConstraintType.in_some_position⟩]
      (a.1, kept ++ a.2)
  | (i, c, Colour.yellow) =>
      let a := st.1.allocList
        [⟨c, (Finset.range L).erase i, ConstraintType.in_some_position⟩,
         ⟨c, {i}, ConstraintType.not_in_positions⟩]
      (a.1, st.2 ++ a.2)
  | (i, c, Colour.grey) =>
      if charIsDuplicate g c then
        let a := st.1.allocList [⟨c, {i}, ConstraintType.not_in_positions⟩]
        (a.1, st.2 ++ a.2)
      else
        let kept := st.2.filter fun r =>
          decide ((st.1.read r).map Constraint.char ≠ some c)
        let a := st.1.allocList
          [⟨c, Finset.range L, ConstraintType.not_in_positions⟩]
        (a.1, kept ++ a.2)

/-- `update_constraints` on the heap: deep-copy the input references, then
fold the update step over the enumerated guess. -/
def update_constraintsH (h : ConstraintHeap) (rs : List Ref) (g : Guess)
    (word_length : ℕ) : ConstraintHeap × List Ref :=
  g.chars.enum.foldl
    (fun st p => updateStepH g word_length st (p.1, p.2.1, p.2.2))
    (h.deepcopy rs)

/-- One heap extends another when it only has extra cells at the end (the
only way a heap grows here: no operation overwrites a cell). -/
def ConstraintHeap.HeapExtends (h' h : ConstraintHeap) : Prop :=
  ∃ t, h'.cells = h.cells ++ t

/-! ### Orchestrator: `simulate` -/

/-- Failures that abort a simulated run: an empty candidate list (Python's
`max` on an empty sequence) or an `enter_word` error. -/
inductive SimError
  | noCandidates
  | puzzleErr (e : PuzzleError)
  deriving DecidableEq, Repr

/-- The `while puzzle.is_in_progress` loop of `simulate`, with explicit fuel
(each iteration appends one guess, so `MAX_NUM_GUESSES` fuel suffices from
an empty history). -/
def simulateLoop (words : List Word) : ℕ → Puzzle → List Constraint →
    Except SimError Puzzle
  | 0, p, _ => .ok p
  | fuel + 1, p, cs =>
    if p.is_in_progress then
      match get_word_to_guess words cs with
      | none => .error .noCandidates
      | some w =>
        match p.enter_word w with
        | .error e => .error (.puzzleErr e)
        | .ok (g, p') =>
          if g.is_correct then .ok p'
          else simulateLoop words fuel p' (update_constraints cs g WORD_LENGTH)
    else .ok p

/-- `simulate` for a given solution (the Python version draws the solution
randomly from the corpus; the draw is the caller's choice here): run the
loop from a fresh puzzle and an empty constraint list. -/
def simulate (words : List Word) (solution : Word) : Except SimError Puzzle :=
  simulateLoop words MAX_NUM_GUESSES ⟨solution, []⟩ []

/-! ### Derived observations used in the statements -/

/-- Whether a working entry counts towards `recognisedCount` for letter `c`. -/
def entryContrib (c : Char) (p : WChar) : ℕ :=
  if p.1 = c ∧ (p.2 = some Colour.green ∨ p.2 = some Colour.yellow) then 1 else 0

/-- Number of green entries of a working list. -/
def greenCount (cs : List WChar) : ℕ :=
  (cs.filter fun p => decide (p.2 = some Colour.green)).length

/-- Number of positions where guess word and solution agree. -/
def matchCount (word solution : Word) : ℕ :=
  ((word.zip solution).filter fun p => decide (p.1 = p.2)).length

/-- A constraint whose position set is non-empty and inside `{0..L-1}`. -/
def Constraint.InBounds (k : Constraint) (L : ℕ) : Prop :=
  k.positions.Nonempty ∧ ∀ p ∈ k.positions, p < L

instance (k : Constraint) (L : ℕ) : Decidable (k.InBounds L) := by
  unfold Constraint.InBounds; infer_instance

/-- A corpus word fit for `Puzzle.enter_word`: five lowercase letters. -/
def WordOK (w : Word) : Prop :=
  w.length = WORD_LENGTH ∧ ∀ c ∈ w, c ∈ ALL_CHARS

instance (w : Word) : Decidable (WordOK w) := by
  unfold WordOK; infer_instance

/-- What each working entry says about the solution during evaluation: a
green entry names the solution letter at its position, a yellow or
undetermined entry's letter occurs in the solution but not at its position,
and a grey entry's letter is not at its position (and, when the letter is
unique in the guess, not in the solution at all). -/
def EvalSound (s : Word) (cs : List WChar) : Prop :=
  (∀ i c, cs.get? i = some (c, some Colour.green) → s.get? i = some c) ∧
  (∀ i c, cs.get? i = some (c, some Colour.yellow) → c ∈ s ∧ s.get? i ≠ some c) ∧
  (∀ i c, cs.get? i = some (c, some Colour.grey) →
    s.get? i ≠ some c ∧ ((cs.map Prod.fst).count c = 1 → c ∉ s)) ∧
  (∀ i c, cs.get? i = some (c, none) → c ∈ s ∧ s.get? i ≠ some c)

end WordleSolver

namespace WordleSolver

/-! ## Counting lemmas for the evaluator -/

theorem recognisedCount_cons (p : WChar) (l : List WChar) (c : Char) :
    recognisedCount (p :: l) c = entryContrib c p + recognisedCount l c := by
  by_cases h : p.1 = c ∧ (p.2 = some Colour.green ∨ p.2 = some Colour.yellow)
  · simp [recognisedCount, entryContrib, List.filter_cons, h]
    omega
  · simp [recognisedCount, entryContrib, List.filter_cons, h]

theorem filter_length_set {α : Type} (l : List α) (pred : α → Bool) :
    ∀ (i : ℕ) (a b : α), l.get? i = some b →
      ((l.set i a).filter pred).length + (if pred b then 1 else 0)
        = (l.filter pred).length + (if pred a then 1 else 0) := by
  induction l with
  | nil => intro i a b h; simp at h
  | cons x xs ih =>
    intro i a b h
    cases i with
    | zero =>
      simp only [List.get?] at h
      injection h with h
      subst h
      rw [List.set_cons_zero, List.filter_cons, List.filter_cons]
      by_cases ha : pred a <;> by_cases hx : pred x <;>
        simp [ha, hx] <;> omega
    | succ n =>
      simp only [List.get?] at h
      have h2 := ih n a b h
      rw [List.set_cons_succ, List.filter_cons, List.filter_cons]
      by_cases hx : pred x <;> by_cases ha : pred a <;> by_cases hb : pred b <;>
        simp [hx, ha, hb] at h2 ⊢ <;> omega

theorem recognisedCount_set (cs : List WChar) (i : ℕ) (a b : WChar) (c : Char)
    (h : cs.get? i = some b) :
    recognisedCount (cs.set i a) c + entryContrib c b
      = recognisedCount cs c + entryContrib c a := by
  have h2 := filter_length_set cs
    (fun p => decide (p.1 = c ∧ (p.2 = some Colour.green ∨ p.2 = some Colour.yellow)))
    i a b h
  unfold recognisedCount entryContrib
  simp only [decide_eq_true_eq] at h2 ⊢
  exact h2

/-! ## Green positions are stable through pass 2 -/

theorem resolveAt_green (s : Word) (cs : List WChar) (i j : ℕ) (c : Char) :
    (resolveAt s cs i).get? j = some (c, some Colour.green) ↔
      cs.get? j = some (c, some Colour.green) := by
  unfold resolveAt
  split
  next c0 heq =>
    by_cases hij : i = j
    · subst hij
      rw [List.get?_set_eq, heq]
      constructor
      · intro hh
        exfalso
        simp only [Option.map] at hh
        split_ifs at hh <;> simp at hh
      · intro hh
        exact absurd hh (by simp)
    · rw [List.get?_set_ne _ _ hij]
  next => rfl

theorem foldl_resolveAt_green (s : Word) (ns : List ℕ) (cs : List WChar)
    (j : ℕ) (c : Char) :
    ((ns.foldl (resolveAt s) cs).get? j = some (c, some Colour.green)) ↔
      cs.get? j = some (c, some Colour.green) := by
  induction ns generalizing cs with
  | nil => exact Iff.rfl
  | cons n ns ih => rw [List.foldl_cons, ih, resolveAt_green]

theorem zip_map_colour1_green (sol : Word) :
    ∀ (w s : Word) (i : ℕ) (c : Char),
      (((w.zip s).map (colour1 sol)).get? i = some (c, some Colour.green)) ↔
        (w.get? i = some c ∧ s.get? i = some c) := by
  intro w
  induction w with
  | nil => intro s i c; simp
  | cons a w ih =>
    intro s i c
    cases s with
    | nil => simp
    | cons b s =>
      cases i with
      | zero =>
        simp only [List.zip_cons_cons, List.map_cons, List.get?, colour1,
          Option.some.injEq, Prod.mk.injEq]
        constructor
        · rintro ⟨hac, hgreen⟩
          refine ⟨hac, ?_⟩
          by_cases hab : a = b
          · exact hab ▸ hac
          · exfalso
            rw [if_neg hab] at hgreen
            split_ifs at hgreen <;> simp at hgreen
        · rintro ⟨hac, hbc⟩
          refine ⟨hac, ?_⟩
          rw [if_pos (hac.trans hbc.symm)]
      | succ n =>
        simpa using ih s n c

/-! ## Green counts -/

theorem greenCount_resolveAt (s : Word) (cs : List WChar) (i : ℕ) :
    greenCount (resolveAt s cs i) = greenCount cs := by
  unfold resolveAt
  split
  next c0 heq =>
    have h2 := filter_length_set cs (fun p => decide (p.2 = some Colour.green)) i
      (c0, some (if recognisedCount cs c0 < s.count c0 then Colour.yellow else Colour.grey))
      (c0, none) heq
    unfold greenCount
    by_cases hrc : recognisedCount cs c0 < s.count c0
    · rw [if_pos hrc] at h2 ⊢
      simp at h2
      omega
    · rw [if_neg hrc] at h2 ⊢
      simp at h2
      omega
  next => rfl

theorem greenCount_foldl (s : Word) (ns : List ℕ) (cs : List WChar) :
    greenCount (ns.foldl (resolveAt s) cs) = greenCount cs := by
  induction ns generalizing cs with
  | nil => rfl
  | cons n ns ih => rw [List.foldl_cons, ih, greenCount_resolveAt]

theorem greenCount_zip_map (sol : Word) (l : List (Char × Char)) :
    greenCount (l.map (colour1 sol)) =
      (l.filter fun p => decide (p.1 = p.2)).length := by
  induction l with
  | nil => rfl
  | cons p l ih =>
    obtain ⟨a, b⟩ := p
    by_cases hab : a = b
    · simp [greenCount, colour1, List.filter_cons, hab] at ih ⊢
      omega
    · by_cases hm : a ∈ sol <;>
        simp [greenCount, colour1, List.filter_cons, hab, hm] at ih ⊢ <;>
        exact ih

/-! ## The recognised-count cap -/

theorem rc_le_count_zip_map (sol : Word) (c : Char) :
    ∀ (w s : Word), recognisedCount ((w.zip s).map (colour1 sol)) c ≤ s.count c := by
  intro w
  induction w with
  | nil => intro s; simp [recognisedCount]
  | cons a w ih =>
    intro s
    cases s with
    | nil => simp [recognisedCount]
    | cons b s =>
      rw [List.zip_cons_cons, List.map_cons, recognisedCount_cons, List.count_cons]
      have hc := ih s
      have hcontrib : entryContrib c (colour1 sol (a, b)) ≤ 1 := by
        unfold entryContrib
        split_ifs <;> omega
      by_cases hab : a = b
      · by_cases hac : a = c
        · simp only [beq_iff_eq]
          rw [if_pos (hab.symm.trans hac)]
          omega
        · have : entryContrib c (colour1 sol (a, b)) = 0 := by
            simp [entryContrib, colour1, hac]
          rw [this]
          omega
      · have : entryContrib c (colour1 sol (a, b)) = 0 := by
          by_cases hm : a ∈ sol <;> simp [entryContrib, colour1, hab, hm]
        rw [this]
        omega

theorem rc_resolveAt_le (s : Word) (cs : List WChar) (i : ℕ)
    (h : ∀ c, recognisedCount cs c ≤ s.count c) (c : Char) :
    recognisedCount (resolveAt s cs i) c ≤ s.count c := by
  unfold resolveAt
  split
  next c0 heq =>
    by_cases hrc : recognisedCount cs c0 < s.count c0
    · rw [if_pos hrc]
      have hset := recognisedCount_set cs i (c0, some Colour.yellow) (c0, none) c heq
      by_cases hc0 : c0 = c
      · subst hc0
        simp [entryContrib] at hset
        omega
      · simp [entryContrib, hc0] at hset
        have := h c
        omega
    · rw [if_neg hrc]
      have hset := recognisedCount_set cs i (c0, some Colour.grey) (c0, none) c heq
      simp [entryContrib] at hset
      have := h c
      omega
  next => exact h c

theorem rc_foldl_le (s : Word) (ns : List ℕ) (cs : List WChar)
    (h : ∀ c, recognisedCount cs c ≤ s.count c) (c : Char) :
    recognisedCount (ns.foldl (resolveAt s) cs) c ≤ s.count c := by
  induction ns generalizing cs with
  | nil => exact h c
  | cons n ns ih => exact ih _ (fun c => rc_resolveAt_le s cs n h c)

end WordleSolver

namespace WordleSolver

/-- Claim C1: for every guess word and solution word of equal length and every
letter `c`, the number of positions of the evaluated guess whose letter is `c`
and whose colour is green or yellow is at most the number of occurrences of
`c` in the solution (the duplicate-letter cap of `Guess.create_from_word`,
whose pass 2 resolves undetermined positions in ascending order). -/
theorem createFromWord_duplicate_cap (w s : Word) (h : w.length = s.length)
    (c : Char) :
    recognisedCount (create_from_word w s) c ≤ s.count c := by
  unfold create_from_word pass1
  exact rc_foldl_le s _ _ (fun c => rc_le_count_zip_map s c w s) c

/-- Witness for C1 at the duplicate-letter example of the test suite:
guess "boots" against solution "piano". -/
theorem createFromWord_duplicate_cap_witness :
    recognisedCount (create_from_word "boots".toList "piano".toList) 'o'
      ≤ ("piano".toList).count 'o' :=
  createFromWord_duplicate_cap "boots".toList "piano".toList (by decide) 'o'

/-- Claim C2: for every guess word and solution word of equal length, the
number of green colours of the evaluated guess equals the number of positions
where guess and solution match exactly, and a position is green precisely when
its letters match. -/
theorem createFromWord_green_positions (w s : Word) (h : w.length = s.length) :
    greenCount (create_from_word w s) = matchCount w s ∧
    ∀ i c, ((create_from_word w s).get? i = some (c, some Colour.green) ↔
      (w.get? i = some c ∧ s.get? i = some c)) := by
  constructor
  · unfold create_from_word pass1 matchCount
    rw [greenCount_foldl, greenCount_zip_map]
  · intro i c
    unfold create_from_word pass1
    rw [foldl_resolveAt_green, zip_map_colour1_green]

/-- Witness for C2 at the first test vector: guess "abbbb" against solution
"acccc" has exactly one green, at position 0 where both words carry 'a'. -/
theorem createFromWord_green_positions_witness :
    greenCount (create_from_word "abbbb".toList "acccc".toList)
        = matchCount "abbbb".toList "acccc".toList ∧
    ((create_from_word "abbbb".toList "acccc".toList).get? 0
        = some ('a', some Colour.green) ↔
      (("abbbb".toList).get? 0 = some 'a' ∧ ("acccc".toList).get? 0 = some 'a')) :=
  ⟨(createFromWord_green_positions "abbbb".toList "acccc".toList (by decide)).1,
   (createFromWord_green_positions "abbbb".toList "acccc".toList (by decide)).2 0 'a'⟩

end WordleSolver

namespace WordleSolver

/-- Claim C3: at a position `i` of the guess carrying a grey letter `c`, the
update step appends only the local exclusion `NOT_IN_POSITIONS {i}` and keeps
every existing constraint when `c` occurs more than once among the guess's
letters; when `c` occurs exactly once it removes every existing constraint on
`c` and appends the global exclusion over all positions `0..L-1`. -/
theorem updateStep_grey_cases (cs : List Constraint) (g : Guess) (L i : ℕ)
    (c : Char) (h : g.chars.get? i = some (c, Colour.grey)) :
    (1 < (g.chars.map Prod.fst).count c →
      updateStep g L cs (i, c, Colour.grey)
        = cs ++ [⟨c, {i}, ConstraintType.not_in_positions⟩]) ∧
    ((g.chars.map Prod.fst).count c = 1 →
      updateStep g L cs (i, c, Colour.grey)
        = (cs.filter fun k => decide (k.char ≠ c))
            ++ [⟨c, Finset.range L, ConstraintType.not_in_positions⟩]) := by
  constructor
  · intro hdup
    simp only [updateStep, charIsDuplicate]
    rw [if_pos (by simpa using hdup)]
  · intro huniq
    simp only [updateStep, charIsDuplicate]
    rw [if_neg (by simp [huniq])]

/-- Witness for C3 on the "boots"-vs-"piano" board: the second 'o' (grey,
position 2) is a duplicate so only the local exclusion is appended, while the
unique 'b' (grey, position 0) triggers the global exclusion. -/
theorem updateStep_grey_cases_witness :
    (updateStep ⟨[('b', Colour.grey), ('o', Colour.yellow), ('o', Colour.grey),
                  ('t', Colour.grey), ('s', Colour.grey)]⟩ 5
        [⟨'o', {1}, ConstraintType.not_in_positions⟩] (2, 'o', Colour.grey)
      = [⟨'o', {1}, ConstraintType.not_in_positions⟩]
          ++ [⟨'o', {2}, ConstraintType.not_in_positions⟩]) ∧
    (updateStep ⟨[('b', Colour.grey), ('o', Colour.yellow), ('o', Colour.grey),
                  ('t', Colour.grey), ('s', Colour.grey)]⟩ 5
        [⟨'b', {1}, ConstraintType.not_in_positions⟩] (0, 'b', Colour.grey)
      = ([⟨'b', {1}, ConstraintType.not_in_positions⟩].filter
            fun k => decide (k.char ≠ 'b'))
          ++ [⟨'b', Finset.range 5, ConstraintType.not_in_positions⟩]) :=
  ⟨(updateStep_grey_cases _ _ 5 2 'o' (by decide)).1 (by decide),
   (updateStep_grey_cases _ _ 5 0 'b' (by decide)).2 (by decide)⟩

/-- Claim C8: the frequency score of a word is the sum of the frequency-table
weights of its distinct letters (each letter counted once), hence invariant
under permutation of the word's letters. -/
theorem frequency_score_distinct_perm (w w' : Word) (hperm : w.Perm w') :
    get_frequency_score w = (w.dedup.map freqOf).sum ∧
    get_frequency_score w = get_frequency_score w' := by
  refine ⟨rfl, ?_⟩
  unfold get_frequency_score
  exact List.Perm.sum_eq (List.Perm.map freqOf hperm.dedup)

/-- Witness for C8: "later" and "alter" are permutations of each other and
get the same frequency score. -/
theorem frequency_score_distinct_perm_witness :
    get_frequency_score "later".toList
        = (("later".toList).dedup.map freqOf).sum ∧
    get_frequency_score "later".toList = get_frequency_score "alter".toList :=
  frequency_score_distinct_perm "later".toList "alter".toList (by decide)

/-- Claim C9: once the guess history holds `MAX_NUM_GUESSES` guesses,
`Puzzle.enter_word` fails for every word (the budget check precedes
everything else), so no guess is produced and the history is unchanged. -/
theorem enter_word_after_max_guesses (p : Puzzle) (word : Word)
    (h : p.guesses.length = MAX_NUM_GUESSES) :
    p.enter_word word = .error PuzzleError.maxGuessesExceeded := by
  unfold Puzzle.enter_word
  rw [if_pos (by omega)]

/-- Witness for C9: a puzzle with six guesses already on the board rejects a
further word. -/
theorem enter_word_after_max_guesses_witness :
    (Puzzle.mk "crane".toList (List.replicate 6 ⟨[]⟩)).enter_word "slate".toList
      = .error PuzzleError.maxGuessesExceeded :=
  enter_word_after_max_guesses _ "slate".toList (by decide)

/-- Claim C4 counterexample: entering the five-letter word "abcde" into a
puzzle whose solution "abc" has length three succeeds and returns a guess
even though the two lengths differ — `Guess.create_from_word` zips the two
words and never compares lengths, and `Puzzle.enter_word` checks only the
entered word against `WORD_LENGTH`, never the solution. -/
theorem evaluate_length_mismatch_counterexample :
    (Puzzle.mk "abc".toList []).enter_word "abcde".toList
      = .ok (⟨[('a', Colour.green), ('b', Colour.green), ('c', Colour.green)]⟩,
             ⟨"abc".toList,
              [⟨[('a', Colour.green), ('b', Colour.green), ('c', Colour.green)]⟩]⟩) := by
  rfl

/-- Claim C4 amended: evaluation itself (`Guess.create_from_word`) never
fails; the only length check is in `Puzzle.enter_word`, which rejects the
entered word exactly when its length differs from the configured
`WORD_LENGTH`, independently of the solution's length. -/
theorem enter_word_wrong_length (p : Puzzle) (word : Word)
    (hbudget : p.guesses.length < MAX_NUM_GUESSES)
    (hlen : word.length ≠ WORD_LENGTH) :
    p.enter_word word = .error PuzzleError.wrongWordLength := by
  unfold Puzzle.enter_word
  rw [if_neg (by omega), if_pos hlen]

/-- Witness for the amended C4: a four-letter word is rejected on a fresh
puzzle. -/
theorem enter_word_wrong_length_witness :
    (Puzzle.mk "crane".toList []).enter_word "late".toList
      = .error PuzzleError.wrongWordLength :=
  enter_word_wrong_length _ "late".toList (by decide) (by decide)

end WordleSolver

namespace WordleSolver

/-! ## Candidate selector: membership of the chosen word -/

theorem foldl_pickMax_mem (f : Word → ℚ) :
    ∀ (ws : List Word) (b : Word),
      ws.foldl (fun best x => if f best < f x then x else best) b ∈ b :: ws := by
  intro ws
  induction ws with
  | nil => intro b; simp
  | cons y ys ih =>
    intro b
    rw [List.foldl_cons]
    by_cases hb : f b < f y
    · rw [if_pos hb]
      have := ih y
      simp only [List.mem_cons] at this ⊢
      tauto
    · rw [if_neg hb]
      have := ih b
      simp only [List.mem_cons] at this ⊢
      tauto

theorem filter_satisfied_eq_nil_iff (words : List Word) (cs : List Constraint) :
    (words.filter (fun word => cs.all fun k => k.is_satisfied word) = [])
      ↔ ∀ w ∈ words, ∃ k ∈ cs, k.is_satisfied w = false := by
  rw [List.filter_eq_nil]
  constructor
  · intro hh w hw
    have := hh w hw
    simp only [List.all_eq_true] at this
    push_neg at this
    obtain ⟨k, hk, hks⟩ := this
    exact ⟨k, hk, by simpa using hks⟩
  · intro hh w hw
    simp only [List.all_eq_true]
    push_neg
    obtain ⟨k, hk, hks⟩ := hh w hw
    exact ⟨k, hk, by simp [hks]⟩

theorem get_word_to_guess_spec (words : List Word) (cs : List Constraint) :
    (∀ w, get_word_to_guess words cs = some w →
      w ∈ words ∧ ∀ k ∈ cs, k.is_satisfied w = true) ∧
    (get_word_to_guess words cs = none ↔
      ∀ w ∈ words, ∃ k ∈ cs, k.is_satisfied w = false) := by
  constructor
  · intro w h
    unfold get_word_to_guess at h
    cases hf : words.filter (fun word => cs.all fun k => k.is_satisfied word) with
    | nil => rw [hf] at h; simp [maxByKey] at h
    | cons x xs =>
      rw [hf] at h
      simp only [maxByKey, Option.some.injEq] at h
      have hmem : w ∈ x :: xs := h ▸ foldl_pickMax_mem get_frequency_score xs x
      rw [← hf] at hmem
      have hmem2 := List.mem_filter.mp hmem
      refine ⟨hmem2.1, ?_⟩
      intro k hk
      have hall := hmem2.2
      simp only [List.all_eq_true] at hall
      exact hall k hk
  · constructor
    · intro hnone
      refine (filter_satisfied_eq_nil_iff words cs).mp ?_
      cases hf : words.filter (fun word => cs.all fun k => k.is_satisfied word) with
      | nil => rfl
      | cons x xs =>
        unfold get_word_to_guess at hnone
        rw [hf] at hnone
        simp [maxByKey] at hnone
    · intro hall
      unfold get_word_to_guess
      rw [(filter_satisfied_eq_nil_iff words cs).mpr hall]
      rfl

/-- Claim C5: the candidate selector either returns a corpus member that
satisfies every constraint, or returns nothing (Python's `max` raising on an
empty sequence, the `NoCandidatesError`) exactly when no corpus word
satisfies all the constraints. -/
theorem get_word_to_guess_sound (words : List Word) (cs : List Constraint) :
    (∀ w, get_word_to_guess words cs = some w →
      w ∈ words ∧ ∀ k ∈ cs, k.is_satisfied w = true) ∧
    (get_word_to_guess words cs = none ↔
      ∀ w ∈ words, ∃ k ∈ cs, k.is_satisfied w = false) :=
  get_word_to_guess_spec words cs

/-- Witness for C5: on the one-word corpus ["later"] with no constraints the
selector returns "later", a corpus member satisfying all (zero) constraints. -/
theorem get_word_to_guess_sound_witness :
    "later".toList ∈ ["later".toList] ∧
    ∀ k ∈ ([] : List Constraint), k.is_satisfied "later".toList = true :=
  (get_word_to_guess_sound ["later".toList] []).1 "later".toList rfl

end WordleSolver

namespace WordleSolver

/-! ## Updater output constraints stay in bounds -/

theorem updateStep_inBounds (g : Guess) (L : ℕ) (hL : 2 ≤ L)
    (cs : List Constraint) (i : ℕ) (hi : i < L) (c : Char) (col : Colour)
    (hcs : ∀ k ∈ cs, k.InBounds L) :
    ∀ k ∈ updateStep g L cs (i, c, col), k.InBounds L := by
  intro k hk
  have hsingle : (⟨c, {i}, ConstraintType.in_some_position⟩ : Constraint).positions
      = {i} := rfl
  cases col with
  | green =>
    simp only [updateStep, List.mem_append, List.mem_filter,
      List.mem_singleton] at hk
    rcases hk with ⟨hmem, _⟩ | hk
    · exact hcs k hmem
    · subst hk
      refine ⟨⟨i, Finset.mem_singleton_self i⟩, ?_⟩
      intro p hp
      rw [Finset.mem_singleton] at hp
      omega
  | yellow =>
    simp only [updateStep, List.mem_append, List.mem_cons,
      List.mem_singleton, List.not_mem_nil, or_false] at hk
    rcases hk with hmem | hk | hk
    · exact hcs k hmem
    · subst hk
      constructor
      · rw [← Finset.card_pos, Finset.card_erase_of_mem (Finset.mem_range.mpr hi),
          Finset.card_range]
        omega
      · intro p hp
        have := Finset.mem_of_mem_erase hp
        exact Finset.mem_range.mp this
    · subst hk
      refine ⟨⟨i, Finset.mem_singleton_self i⟩, ?_⟩
      intro p hp
      rw [Finset.mem_singleton] at hp
      omega
  | grey =>
    simp only [updateStep] at hk
    by_cases hdup : charIsDuplicate g c
    · rw [if_pos hdup] at hk
      simp only [List.mem_append, List.mem_singleton] at hk
      rcases hk with hmem | hk
      · exact hcs k hmem
      · subst hk
        refine ⟨⟨i, Finset.mem_singleton_self i⟩, ?_⟩
        intro p hp
        rw [Finset.mem_singleton] at hp
        omega
    · rw [if_neg hdup] at hk
      simp only [List.mem_append, List.mem_filter, List.mem_singleton] at hk
      rcases hk with ⟨hmem, _⟩ | hk
      · exact hcs k hmem
      · subst hk
        refine ⟨Finset.nonempty_range_iff.mpr (by omega), ?_⟩
        intro p hp
        exact Finset.mem_range.mp hp

theorem foldl_updateStep_inBounds (g : Guess) (L : ℕ) (hL : 2 ≤ L) :
    ∀ (l : List (ℕ × (Char × Colour))) (cs : List Constraint),
      (∀ p ∈ l, p.1 < L) → (∀ k ∈ cs, k.InBounds L) →
      ∀ k ∈ l.foldl (fun cs p => updateStep g L cs (p.1, p.2.1, p.2.2)) cs,
        k.InBounds L := by
  intro l
  induction l with
  | nil => intro cs _ hcs; exact hcs
  | cons p l ih =>
    intro cs hl hcs
    rw [List.foldl_cons]
    refine ih _ (fun q hq => hl q (List.mem_cons_of_mem p hq)) ?_
    exact updateStep_inBounds g L hL cs p.1 (hl p (List.mem_cons_self p l))
      p.2.1 p.2.2 hcs

/-- Claim C10 amended (restricted to `word_length ≥ 2`; at `word_length = 1`
a yellow guess letter produces an `IN_SOME_POSITION` constraint with an empty
position set, see the counterexample): for a guess of length `word_length`
and input constraints already in bounds, every constraint produced by
`update_constraints` has a non-empty position set contained in
`{0..word_length-1}`, so `is_satisfied` on a word of length `word_length`
never indexes out of bounds. -/
theorem update_constraints_inBounds (cs : List Constraint) (g : Guess)
    (L : ℕ) (hL : 2 ≤ L) (hg : g.chars.length = L)
    (hcs : ∀ k ∈ cs, k.InBounds L) :
    ∀ k ∈ update_constraints cs g L,
      k.InBounds L ∧
      ∀ (word : Word), word.length = L →
        ∀ p ∈ k.positions, word.get? p ≠ none := by
  intro k hk
  have hib : k.InBounds L := by
    refine foldl_updateStep_inBounds g L hL g.chars.enum cs ?_ hcs k hk
    intro p hp
    have := List.mem_enum_iff_get? (x := p) (l := g.chars) |>.mp hp
    have hlt : p.1 < g.chars.length := by
      by_contra hge
      rw [List.get?_eq_none.mpr (by omega)] at this
      exact Option.noConfusion this
    omega
  refine ⟨hib, ?_⟩
  intro word hw p hp
  intro hnone
  have := List.get?_eq_none.mp hnone
  have := hib.2 p hp
  omega

/-- Counterexample to C10 as stated: at `word_length = 1`, updating the empty
constraint list with the one-letter guess `[('a', yellow)]` produces the
constraint `IN_SOME_POSITION 'a' ∅`, whose position set is empty. -/
theorem update_constraints_inBounds_counterexample :
    ¬ (∀ k ∈ update_constraints [] ⟨[('a', Colour.yellow)]⟩ 1,
        k.InBounds 1) := by
  decide

/-- Witness for the amended C10: the global exclusion on 'b' produced by
updating the empty constraint list with the "boots"-vs-"piano" guess is in
bounds, and reading "piano" at its position 0 stays in range. -/
theorem update_constraints_inBounds_witness :
    (Constraint.mk 'b' (Finset.range 5) ConstraintType.not_in_positions).InBounds 5 ∧
    ("piano".toList).get? 0 ≠ none :=
  have h := update_constraints_inBounds []
    ⟨[('b', Colour.grey), ('o', Colour.yellow), ('o', Colour.grey),
      ('t', Colour.grey), ('s', Colour.grey)]⟩ 5
    (by decide) (by decide) (by simp)
    ⟨'b', Finset.range 5, ConstraintType.not_in_positions⟩ (by decide)
  ⟨h.1, h.2 "piano".toList (by decide) 0 (by decide)⟩

end WordleSolver

namespace WordleSolver

/-! ## The heap-level updater never touches pre-existing cells -/

theorem heapExtends_refl (h : ConstraintHeap) : h.HeapExtends h :=
  ⟨[], by simp⟩

theorem heapExtends_trans {h1 h2 h3 : ConstraintHeap}
    (h12 : h2.HeapExtends h1) (h23 : h3.HeapExtends h2) : h3.HeapExtends h1 := by
  obtain ⟨t, ht⟩ := h12
  obtain ⟨u, hu⟩ := h23
  exact ⟨t ++ u, by rw [hu, ht, List.append_assoc]⟩

theorem heapExtends_read {h' h : ConstraintHeap} (hext : h'.HeapExtends h)
    {r : Ref} (hr : r < h.cells.length) : h'.read r = h.read r := by
  obtain ⟨t, ht⟩ := hext
  unfold ConstraintHeap.read
  rw [ht, List.get?_append hr]

theorem read_isSome {h : ConstraintHeap} {r : Ref} (hr : r < h.cells.length) :
    ∃ k, h.read r = some k := by
  cases hk : h.read r with
  | none =>
    unfold ConstraintHeap.read at hk
    exact absurd hr (Nat.not_lt.mpr (List.get?_eq_none.mp hk))
  | some k => exact ⟨k, rfl⟩

theorem allocList_extends (h : ConstraintHeap) (vs : List Constraint) :
    (h.allocList vs).1.HeapExtends h := ⟨vs, rfl⟩

theorem allocList_refs_lt (h : ConstraintHeap) (vs : List Constraint) :
    ∀ r ∈ (h.allocList vs).2, r < (h.allocList vs).1.cells.length := by
  intro r hr
  have h2 : (h.allocList vs).2 = (List.range vs.length).map (· + h.cells.length) := rfl
  have h1 : (h.allocList vs).1.cells.length = h.cells.length + vs.length := by
    show (h.cells ++ vs).length = _
    simp
  rw [h2] at hr
  rw [h1]
  simp only [List.mem_map, List.mem_range] at hr
  obtain ⟨i, hi, hieq⟩ := hr
  subst hieq
  show i + h.cells.length < h.cells.length + vs.length
  omega

theorem readRefs_units :
    ∀ (vs cells : List Constraint),
      readRefs ⟨cells ++ vs⟩ ((List.range vs.length).map (· + cells.length))
        = vs := by
  intro vs
  induction vs with
  | nil => intro cells; rfl
  | cons v vs ih =>
    intro cells
    have hhead : (ConstraintHeap.mk (cells ++ v :: vs)).read (0 + cells.length)
        = some v := by
      unfold ConstraintHeap.read
      rw [Nat.zero_add, List.get?_append_right (Nat.le_refl _)]
      simp
    have hfun : ((· + cells.length) ∘ Nat.succ) = (· + (cells ++ [v]).length) := by
      funext i
      simp only [Function.comp_apply, List.length_append, List.length_cons,
        List.length_nil]
      omega
    have hcells : cells ++ v :: vs = (cells ++ [v]) ++ vs := by
      rw [List.append_assoc]
      rfl
    have hIH := ih (cells ++ [v])
    rw [List.length_cons, List.range_succ_eq_map, List.map_cons, List.map_map]
    unfold readRefs
    simp only [List.filterMap_cons, hhead, hfun]
    rw [hcells]
    unfold readRefs at hIH
    rw [hIH]

theorem readRefs_of_extends {h' h : ConstraintHeap} (hext : h'.HeapExtends h) :
    ∀ (rs : List Ref), (∀ r ∈ rs, r < h.cells.length) →
      readRefs h' rs = readRefs h rs := by
  intro rs
  induction rs with
  | nil => intro _; rfl
  | cons r rs ih =>
    intro hv
    unfold readRefs
    rw [List.filterMap_cons, List.filterMap_cons,
      heapExtends_read hext (hv r (List.mem_cons_self r rs))]
    have := ih fun q hq => hv q (List.mem_cons_of_mem r hq)
    unfold readRefs at this
    rw [this]

theorem readRefs_filter_char (h : ConstraintHeap) (c : Char) :
    ∀ (rs : List Ref), (∀ r ∈ rs, r < h.cells.length) →
      readRefs h (rs.filter fun r =>
          decide ((h.read r).map Constraint.char ≠ some c))
        = (readRefs h rs).filter fun k => decide (k.char ≠ c) := by
  intro rs
  induction rs with
  | nil => intro _; rfl
  | cons r rs ih =>
    intro hv
    obtain ⟨k, hk⟩ := read_isSome (hv r (List.mem_cons_self r rs))
    have htail := ih fun q hq => hv q (List.mem_cons_of_mem r hq)
    by_cases hkc : k.char = c
    · simp [readRefs, List.filter_cons, List.filterMap_cons, hk, hkc] at htail ⊢
      exact htail
    · simp [readRefs, List.filter_cons, List.filterMap_cons, hk, hkc] at htail ⊢
      exact htail

theorem filter_refs_lt {h : ConstraintHeap} {rs : List Ref}
    (hv : ∀ r ∈ rs, r < h.cells.length) (pred : Ref → Bool) :
    ∀ r ∈ rs.filter pred, r < h.cells.length :=
  fun r hr => hv r (List.mem_filter.mp hr).1

theorem allocList_length_le (h : ConstraintHeap) (vs : List Constraint) :
    h.cells.length ≤ (h.allocList vs).1.cells.length := by
  simp [ConstraintHeap.allocList]

end WordleSolver

namespace WordleSolver

theorem allocState_good (h0 : ConstraintHeap) (old : List Ref)
    (vs : List Constraint) (hval : ∀ r ∈ old, r < h0.cells.length) :
    ((h0.allocList vs).1).HeapExtends h0 ∧
    (∀ r ∈ old ++ (h0.allocList vs).2, r < (h0.allocList vs).1.cells.length) ∧
    readRefs (h0.allocList vs).1 (old ++ (h0.allocList vs).2)
      = readRefs h0 old ++ vs := by
  refine ⟨allocList_extends h0 vs, ?_, ?_⟩
  · intro r hr
    rcases List.mem_append.mp hr with hro | hrn
    · exact lt_of_lt_of_le (hval r hro) (allocList_length_le h0 vs)
    · exact allocList_refs_lt h0 vs r hrn
  · unfold readRefs
    rw [List.filterMap_append]
    have h1 : readRefs (h0.allocList vs).1 old = readRefs h0 old :=
      readRefs_of_extends (allocList_extends h0 vs) old hval
    have h2 : readRefs (h0.allocList vs).1 (h0.allocList vs).2 = vs :=
      readRefs_units vs h0.cells
    unfold readRefs at h1 h2
    rw [h1, h2]

theorem updateStepH_good (g : Guess) (L : ℕ) (st : ConstraintHeap × List Ref)
    (i : ℕ) (c : Char) (col : Colour)
    (hval : ∀ r ∈ st.2, r < st.1.cells.length) :
    (updateStepH g L st (i, c, col)).1.HeapExtends st.1 ∧
    (∀ r ∈ (updateStepH g L st (i, c, col)).2,
      r < (updateStepH g L st (i, c, col)).1.cells.length) ∧
    readRefs (updateStepH g L st (i, c, col)).1
        (updateStepH g L st (i, c, col)).2
      = updateStep g L (readRefs st.1 st.2) (i, c, col) := by
  cases col with
  | green =>
    have hkval := filter_refs_lt hval
      (fun r => decide ((st.1.read r).map Constraint.char ≠ some c))
    have hgood := allocState_good st.1
      (st.2.filter fun r => decide ((st.1.read r).map Constraint.char ≠ some c))
      [⟨c, {i}, ConstraintType.in_some_position⟩] hkval
    have hfil := readRefs_filter_char st.1 c st.2 hval
    simp only [updateStepH, updateStep]
    exact ⟨hgood.1, hgood.2.1, by rw [hgood.2.2, hfil]⟩
  | yellow =>
    have hgood := allocState_good st.1 st.2
      [⟨c, (Finset.range L).erase i, ConstraintType.in_some_position⟩,
       ⟨c, {i}, ConstraintType.not_in_positions⟩] hval
    simp only [updateStepH, updateStep]
    exact ⟨hgood.1, hgood.2.1, hgood.2.2⟩
  | grey =>
    by_cases hdup : charIsDuplicate g c
    · have hgood := allocState_good st.1 st.2
        [⟨c, {i}, ConstraintType.not_in_positions⟩] hval
      simp only [updateStepH, updateStep, if_pos hdup]
      exact ⟨hgood.1, hgood.2.1, hgood.2.2⟩
    · have hkval := filter_refs_lt hval
        (fun r => decide ((st.1.read r).map Constraint.char ≠ some c))
      have hgood := allocState_good st.1
        (st.2.filter fun r => decide ((st.1.read r).map Constraint.char ≠ some c))
        [⟨c, Finset.range L, ConstraintType.not_in_positions⟩] hkval
      have hfil := readRefs_filter_char st.1 c st.2 hval
      simp only [updateStepH, updateStep, if_neg hdup]
      exact ⟨hgood.1, hgood.2.1, by rw [hgood.2.2, hfil]⟩

theorem foldl_updateStepH_good (g : Guess) (L : ℕ) :
    ∀ (l : List (ℕ × (Char × Colour))) (st : ConstraintHeap × List Ref),
      (∀ r ∈ st.2, r < st.1.cells.length) →
      (l.foldl (fun st p => updateStepH g L st (p.1, p.2.1, p.2.2)) st).1.HeapExtends st.1 ∧
      (∀ r ∈ (l.foldl (fun st p => updateStepH g L st (p.1, p.2.1, p.2.2)) st).2,
        r < (l.foldl (fun st p => updateStepH g L st (p.1, p.2.1, p.2.2)) st).1.cells.length) ∧
      readRefs (l.foldl (fun st p => updateStepH g L st (p.1, p.2.1, p.2.2)) st).1
          (l.foldl (fun st p => updateStepH g L st (p.1, p.2.1, p.2.2)) st).2
        = l.foldl (fun cs p => updateStep g L cs (p.1, p.2.1, p.2.2))
            (readRefs st.1 st.2) := by
  intro l
  induction l with
  | nil => intro st hval; exact ⟨heapExtends_refl _, hval, rfl⟩
  | cons p l ih =>
    intro st hval
    rw [List.foldl_cons, List.foldl_cons]
    have hstep := updateStepH_good g L st p.1 p.2.1 p.2.2 hval
    have hrec := ih (updateStepH g L st (p.1, p.2.1, p.2.2)) hstep.2.1
    refine ⟨heapExtends_trans hstep.1 hrec.1, hrec.2.1, ?_⟩
    rw [hrec.2.2, hstep.2.2]

/-- Claim C6: in the explicit-store model of the updater, `update_constraints`
leaves every pre-existing cell — in particular every constraint object of the
input collection — unchanged (the heap only ever grows by fresh allocations),
and the reference list it returns is a new collection whose values read back
as exactly the functional `update_constraints` of the input's values; the
input reference list itself is untouched. -/
theorem update_constraints_no_mutation (h : ConstraintHeap) (rs : List Ref)
    (g : Guess) (L : ℕ) (hv : ∀ r ∈ rs, r < h.cells.length) :
    (∀ r, r < h.cells.length →
      (update_constraintsH h rs g L).1.read r = h.read r) ∧
    readRefs (update_constraintsH h rs g L).1 (update_constraintsH h rs g L).2
      = update_constraints (readRefs h rs) g L := by
  have hdcval : ∀ r ∈ (h.deepcopy rs).2, r < (h.deepcopy rs).1.cells.length :=
    allocList_refs_lt h (readRefs h rs)
  have hdcread : readRefs (h.deepcopy rs).1 (h.deepcopy rs).2 = readRefs h rs :=
    readRefs_units (readRefs h rs) h.cells
  have hfold := foldl_updateStepH_good g L g.chars.enum (h.deepcopy rs) hdcval
  constructor
  · intro r hr
    have hext : (update_constraintsH h rs g L).1.HeapExtends h :=
      heapExtends_trans (allocList_extends h (readRefs h rs)) hfold.1
    exact heapExtends_read hext hr
  · have hread := hfold.2.2
    rw [hdcread] at hread
    exact hread

/-- Witness for C6: updating a one-constraint heap through a one-letter green
guess preserves the original cell and the output reads back as the
functional update. -/
theorem update_constraints_no_mutation_witness :
    (update_constraintsH ⟨[⟨'a', {0}, ConstraintType.in_some_position⟩]⟩ [0]
        ⟨[('b', Colour.green)]⟩ 5).1.read 0
      = (ConstraintHeap.mk [⟨'a', {0}, ConstraintType.in_some_position⟩]).read 0 ∧
    readRefs (update_constraintsH ⟨[⟨'a', {0}, ConstraintType.in_some_position⟩]⟩
        [0] ⟨[('b', Colour.green)]⟩ 5).1
        (update_constraintsH ⟨[⟨'a', {0}, ConstraintType.in_some_position⟩]⟩
        [0] ⟨[('b', Colour.green)]⟩ 5).2
      = update_constraints
          (readRefs ⟨[⟨'a', {0}, ConstraintType.in_some_position⟩]⟩ [0])
          ⟨[('b', Colour.green)]⟩ 5 :=
  ⟨(update_constraints_no_mutation ⟨[⟨'a', {0}, ConstraintType.in_some_position⟩]⟩
      [0] ⟨[('b', Colour.green)]⟩ 5 (by decide)).1 0 (by decide),
   (update_constraints_no_mutation ⟨[⟨'a', {0}, ConstraintType.in_some_position⟩]⟩
      [0] ⟨[('b', Colour.green)]⟩ 5 (by decide)).2⟩

end WordleSolver

namespace WordleSolver

/-! ## Evaluator soundness: what each colour says about the solution -/

theorem letters_set (x : Option Colour) :
    ∀ (cs : List WChar) (j : ℕ) (c0 : Char) (oc : Option Colour),
      cs.get? j = some (c0, oc) →
      (cs.set j (c0, x)).map Prod.fst = cs.map Prod.fst := by
  intro cs
  induction cs with
  | nil => intro j c0 oc h; simp at h
  | cons p t ih =>
    intro j c0 oc h
    cases j with
    | zero =>
      simp only [List.get?] at h
      injection h with h
      rw [List.set_cons_zero, List.map_cons, List.map_cons]
      rw [show p.1 = c0 from congrArg Prod.fst h]
    | succ n =>
      simp only [List.get?] at h
      rw [List.set_cons_succ, List.map_cons, List.map_cons, ih n c0 oc h]

theorem rc_le_letter_count (c : Char) :
    ∀ (cs : List WChar), recognisedCount cs c ≤ (cs.map Prod.fst).count c := by
  intro cs
  induction cs with
  | nil => simp [recognisedCount]
  | cons p t ih =>
    rw [recognisedCount_cons, List.map_cons, List.count_cons]
    simp only [beq_iff_eq]
    have hcontrib : entryContrib c p ≤ if p.1 = c then 1 else 0 := by
      unfold entryContrib
      split_ifs with h1 h2 <;> first | omega | exact absurd h1.1 h2
    omega

theorem rc_lt_letter_count_of_none (c0 : Char) :
    ∀ (cs : List WChar) (j : ℕ), cs.get? j = some (c0, none) →
      recognisedCount cs c0 + 1 ≤ (cs.map Prod.fst).count c0 := by
  intro cs
  induction cs with
  | nil => intro j h; simp at h
  | cons p t ih =>
    intro j h
    rw [recognisedCount_cons, List.map_cons, List.count_cons]
    simp only [beq_iff_eq]
    cases j with
    | zero =>
      simp only [List.get?] at h
      injection h with h
      subst h
      have := rc_le_letter_count c0 t
      simp [entryContrib]
      omega
    | succ n =>
      simp only [List.get?] at h
      have hrec := ih n h
      have hcontrib : entryContrib c0 p ≤ if p.1 = c0 then 1 else 0 := by
        unfold entryContrib
        split_ifs with h1 h2 <;> first | omega | exact absurd h1.1 h2
      omega

theorem pass1_entry (sol : Word) :
    ∀ (w s : Word) (i : ℕ) (c : Char) (oc : Option Colour),
      ((w.zip s).map (colour1 sol)).get? i = some (c, oc) →
      ∃ b, w.get? i = some c ∧ s.get? i = some b ∧
        oc = (if c = b then some Colour.green
              else if c ∈ sol then none else some Colour.grey) := by
  intro w
  induction w with
  | nil => intro s i c oc h; simp at h
  | cons a w ih =>
    intro s i c oc h
    cases s with
    | nil => simp at h
    | cons b s =>
      cases i with
      | zero =>
        simp only [List.zip_cons_cons, List.map_cons, List.get?, colour1,
          Option.some.injEq, Prod.mk.injEq] at h
        exact ⟨b, by simp [h.1], rfl, by rw [← h.1, ← h.2]⟩
      | succ n =>
        simp only [List.zip_cons_cons, List.map_cons, List.get?] at h
        exact ih s n c oc h

theorem evalSound_pass1 (w s : Word) : EvalSound s (pass1 w s) := by
  unfold pass1
  refine ⟨?_, ?_, ?_, ?_⟩
  · intro i c h
    obtain ⟨b, _, hsb, hoc⟩ := pass1_entry s w s i c _ h
    by_cases hcb : c = b
    · rw [hsb, hcb]
    · rw [if_neg hcb] at hoc
      by_cases hmem : c ∈ s
      · rw [if_pos hmem] at hoc
        exact Option.noConfusion hoc
      · rw [if_neg hmem] at hoc
        exact absurd (Option.some.inj hoc) (by simp)
  · intro i c h
    obtain ⟨b, _, hsb, hoc⟩ := pass1_entry s w s i c _ h
    by_cases hcb : c = b
    · rw [if_pos hcb] at hoc
      exact absurd (Option.some.inj hoc) (by simp)
    · rw [if_neg hcb] at hoc
      by_cases hmem : c ∈ s
      · rw [if_pos hmem] at hoc
        exact Option.noConfusion hoc
      · rw [if_neg hmem] at hoc
        exact absurd (Option.some.inj hoc) (by simp)
  · intro i c h
    obtain ⟨b, _, hsb, hoc⟩ := pass1_entry s w s i c _ h
    by_cases hcb : c = b
    · rw [if_pos hcb] at hoc
      exact absurd (Option.some.inj hoc) (by simp)
    · rw [if_neg hcb] at hoc
      by_cases hmem : c ∈ s
      · rw [if_pos hmem] at hoc
        exact Option.noConfusion hoc
      · refine ⟨?_, fun _ => hmem⟩
        rw [hsb]
        intro hbc
        exact hcb (Option.some.inj hbc).symm
  · intro i c h
    obtain ⟨b, _, hsb, hoc⟩ := pass1_entry s w s i c _ h
    by_cases hcb : c = b
    · rw [if_pos hcb] at hoc
      exact Option.noConfusion hoc
    · rw [if_neg hcb] at hoc
      by_cases hmem : c ∈ s
      · refine ⟨hmem, ?_⟩
        rw [hsb]
        intro hbc
        exact hcb (Option.some.inj hbc).symm
      · rw [if_neg hmem] at hoc
        exact Option.noConfusion hoc

theorem evalSound_resolveAt (s : Word) (cs : List WChar) (i : ℕ)
    (h : EvalSound s cs) : EvalSound s (resolveAt s cs i) := by
  obtain ⟨hg, hy, hgr, hn⟩ := h
  unfold resolveAt
  split
  next c0 heq =>
    have hlet := letters_set
      (some (if recognisedCount cs c0 < s.count c0 then Colour.yellow else Colour.grey))
      cs i c0 none heq
    have hgeti : (cs.set i
        (c0, some (if recognisedCount cs c0 < s.count c0
                   then Colour.yellow else Colour.grey))).get? i
        = some (c0, some (if recognisedCount cs c0 < s.count c0
                   then Colour.yellow else Colour.grey)) := by
      rw [List.get?_set_eq, heq]
      rfl
    refine ⟨?_, ?_, ?_, ?_⟩
    · intro j c hj
      by_cases hij : i = j
      · subst hij
        rw [hgeti] at hj
        injection hj with hj
        injection hj with hj1 hj2
        split_ifs at hj2 <;> exact absurd (Option.some.inj hj2) (by simp)
      · rw [List.get?_set_ne _ _ hij] at hj
        exact hg j c hj
    · intro j c hj
      by_cases hij : i = j
      · subst hij
        rw [hgeti] at hj
        injection hj with hj
        injection hj with hj1 hj2
        rw [← hj1]
        exact hn i c0 heq
      · rw [List.get?_set_ne _ _ hij] at hj
        exact hy j c hj
    · intro j c hj
      rw [hlet]
      by_cases hij : i = j
      · subst hij
        rw [hgeti] at hj
        injection hj with hj
        injection hj with hj1 hj2
        rw [← hj1]
        refine ⟨(hn i c0 heq).2, ?_⟩
        intro hcount
        split_ifs at hj2 with hrc
        · exact absurd (Option.some.inj hj2) (by simp)
        · have hle := rc_lt_letter_count_of_none c0 cs i heq
          have : s.count c0 = 0 := by omega
          exact List.count_eq_zero.mp this
      · rw [List.get?_set_ne _ _ hij] at hj
        exact hgr j c hj
    · intro j c hj
      by_cases hij : i = j
      · subst hij
        rw [hgeti] at hj
        injection hj with hj
        injection hj with hj1 hj2
        exact Option.noConfusion hj2
      · rw [List.get?_set_ne _ _ hij] at hj
        exact hn j c hj
  next => exact ⟨hg, hy, hgr, hn⟩

theorem evalSound_foldl (s : Word) :
    ∀ (ns : List ℕ) (cs : List WChar), EvalSound s cs →
      EvalSound s (ns.foldl (resolveAt s) cs) := by
  intro ns
  induction ns with
  | nil => intro cs h; exact h
  | cons n ns ih =>
    intro cs h
    rw [List.foldl_cons]
    exact ih _ (evalSound_resolveAt s cs n h)

theorem evalSound_create (w s : Word) : EvalSound s (create_from_word w s) := by
  unfold create_from_word
  exact evalSound_foldl s _ _ (evalSound_pass1 w s)

end WordleSolver

namespace WordleSolver

/-! ## Pass 2 resolves every position, preserves length and letters -/

theorem resolveAt_length (s : Word) (cs : List WChar) (i : ℕ) :
    (resolveAt s cs i).length = cs.length := by
  unfold resolveAt
  split
  next c0 heq => rw [List.length_set]
  next => rfl

theorem foldl_resolveAt_length (s : Word) :
    ∀ (ns : List ℕ) (cs : List WChar),
      (ns.foldl (resolveAt s) cs).length = cs.length := by
  intro ns
  induction ns with
  | nil => intro cs; rfl
  | cons n ns ih =>
    intro cs
    rw [List.foldl_cons, ih, resolveAt_length]

theorem resolveAt_no_new_none (s : Word) (cs : List WChar) (i j : ℕ) (c : Char)
    (h : (resolveAt s cs i).get? j = some (c, none)) :
    cs.get? j = some (c, none) := by
  unfold resolveAt at h
  split at h
  next c0 heq =>
    by_cases hij : i = j
    · subst hij
      rw [List.get?_set_eq, heq] at h
      exact absurd (Option.some.inj h) (by simp)
    · rwa [List.get?_set_ne _ _ hij] at h
  next => exact h

theorem resolveAt_resolves (s : Word) (cs : List WChar) (i : ℕ) (c : Char) :
    (resolveAt s cs i).get? i ≠ some (c, none) := by
  unfold resolveAt
  split
  next c0 heq =>
    rw [List.get?_set_eq, heq]
    intro h
    exact absurd (Option.some.inj h) (by simp)
  next hmatch =>
    intro h
    exact hmatch c h

theorem create_all_resolved (w s : Word) :
    ∀ (j : ℕ) (c : Char), (create_from_word w s).get? j ≠ some (c, none) := by
  have hmain : ∀ (k : ℕ) (j : ℕ) (c : Char), j < k →
      ((List.range k).foldl (resolveAt s) (pass1 w s)).get? j
        ≠ some (c, none) := by
    intro k
    induction k with
    | zero => intro j c hj; omega
    | succ m ih =>
      intro j c hj
      rw [List.range_succ, List.foldl_append, List.foldl_cons, List.foldl_nil]
      by_cases hjm : j = m
      · subst hjm
        exact resolveAt_resolves s _ j c
      · intro h
        exact ih j c (by omega) (resolveAt_no_new_none s _ m j c h)
  intro j c
  unfold create_from_word
  by_cases hj : j < (pass1 w s).length
  · exact hmain (pass1 w s).length j c hj
  · rw [List.get?_eq_none.mpr (by rw [foldl_resolveAt_length]; omega)]
    exact fun h => Option.noConfusion h

theorem pass1_letters (w s : Word) :
    (pass1 w s).map Prod.fst = (w.zip s).map Prod.fst := by
  unfold pass1
  rw [List.map_map]
  rfl

theorem resolveAt_letters (s : Word) (cs : List WChar) (i : ℕ) :
    (resolveAt s cs i).map Prod.fst = cs.map Prod.fst := by
  unfold resolveAt
  split
  next c0 heq => exact letters_set _ cs i c0 none heq
  next => rfl

theorem create_letters (w s : Word) (h : w.length = s.length) :
    (create_from_word w s).map Prod.fst = w := by
  unfold create_from_word
  have hfold : ∀ (ns : List ℕ) (cs : List WChar),
      (ns.foldl (resolveAt s) cs).map Prod.fst = cs.map Prod.fst := by
    intro ns
    induction ns with
    | nil => intro cs; rfl
    | cons n ns ih =>
      intro cs
      rw [List.foldl_cons, ih, resolveAt_letters]
  rw [hfold, pass1_letters, List.map_fst_zip]
  omega

end WordleSolver

namespace WordleSolver

/-! ## From the working list to the finalized guess -/

theorem finalize_get? (cs : List WChar) (i : ℕ) :
    (finalize cs).chars.get? i
      = (cs.get? i).map (fun p => (p.1, p.2.getD Colour.grey)) := by
  unfold finalize
  exact List.get?_map _ _ _

theorem finalize_letters (cs : List WChar) :
    (finalize cs).chars.map Prod.fst = cs.map Prod.fst := by
  unfold finalize
  rw [List.map_map]
  rfl

theorem finalize_length (cs : List WChar) :
    (finalize cs).chars.length = cs.length := by
  unfold finalize
  rw [List.length_map]

theorem create_length (w s : Word) (h : w.length = s.length) :
    (create_from_word w s).length = w.length := by
  unfold create_from_word
  rw [foldl_resolveAt_length]
  unfold pass1
  rw [List.length_map, List.length_zip]
  omega

theorem guess_entry_facts (w s : Word) (hw : w.length = s.length)
    (i : ℕ) (c : Char) (col : Colour)
    (h : (finalize (create_from_word w s)).chars.get? i = some (c, col)) :
    (col = Colour.green → s.get? i = some c) ∧
    (col = Colour.yellow → c ∈ s ∧ s.get? i ≠ some c) ∧
    (col = Colour.grey → s.get? i ≠ some c ∧ (w.count c = 1 → c ∉ s)) := by
  rw [finalize_get?] at h
  cases hcf : (create_from_word w s).get? i with
  | none =>
    rw [hcf] at h
    exact Option.noConfusion h
  | some p =>
    rw [hcf] at h
    obtain ⟨c', oc⟩ := p
    have hp : (c', oc.getD Colour.grey) = (c, col) := Option.some.inj h
    injection hp with hp1 hp2
    subst hp1
    cases oc with
    | none => exact absurd hcf (create_all_resolved w s i c')
    | some col0 =>
      have hcol0 : col0 = col := hp2
      subst hcol0
      obtain ⟨hg, hy, hgr, hn⟩ := evalSound_create w s
      refine ⟨?_, ?_, ?_⟩
      · intro hcol
        subst hcol
        exact hg i c' hcf
      · intro hcol
        subst hcol
        exact hy i c' hcf
      · intro hcol
        subst hcol
        have := hgr i c' hcf
        rwa [create_letters w s hw] at this

/-! ## The selector finds a word whenever the solution still qualifies -/

theorem get_word_to_guess_of_sat (words : List Word) (cs : List Constraint)
    (s : Word) (hs : s ∈ words)
    (hsat : ∀ k ∈ cs, k.is_satisfied s = true) :
    ∃ w, get_word_to_guess words cs = some w := by
  cases hw : get_word_to_guess words cs with
  | some w => exact ⟨w, rfl⟩
  | none =>
    obtain ⟨k, hk, hks⟩ := ((get_word_to_guess_spec words cs).2.mp hw) s hs
    rw [hsat k hk] at hks
    exact absurd hks (by simp)

/-! ## `enter_word` succeeds on a fit word within the budget -/

theorem lower_fix : ∀ c ∈ ALL_CHARS, c.toLower = c := by decide

theorem map_toLower_id :
    ∀ (w : Word), (∀ c ∈ w, c ∈ ALL_CHARS) → w.map Char.toLower = w := by
  intro w
  induction w with
  | nil => intro _; rfl
  | cons a t ih =>
    intro h
    rw [List.map_cons, lower_fix a (h a (List.mem_cons_self a t)),
      ih fun c hc => h c (List.mem_cons_of_mem a hc)]

theorem all_contains_of_mem (w : Word) (h : ∀ c ∈ w, c ∈ ALL_CHARS) :
    (w.all fun c => ALL_CHARS.contains c) = true := by
  rw [List.all_eq_true]
  intro c hc
  simpa using h c hc

theorem enter_word_ok (p : Puzzle) (w : Word)
    (hb : p.guesses.length < MAX_NUM_GUESSES) (hwok : WordOK w) :
    p.enter_word w = .ok (finalize (create_from_word w p.solution),
      ⟨p.solution, p.guesses ++ [finalize (create_from_word w p.solution)]⟩) := by
  unfold Puzzle.enter_word
  rw [if_neg (by omega), if_neg (by simp [hwok.1])]
  have hmap : w.map Char.toLower = w := map_toLower_id w hwok.2
  simp only [hmap]
  rw [if_neg (not_not_intro (all_contains_of_mem w hwok.2))]

/-! ## The win/progress flags -/

theorem is_in_progress_iff (p : Puzzle) :
    p.is_in_progress = true ↔
      (p.won = false ∧ p.guesses.length < MAX_NUM_GUESSES) := by
  unfold Puzzle.is_in_progress
  cases hw : p.won <;> simp

theorem won_concat (s : Word) (gs : List Guess) (g : Guess) :
    (Puzzle.mk s (gs ++ [g])).won = g.is_correct := by
  unfold Puzzle.won
  rw [List.getLast?_concat]

end WordleSolver

namespace WordleSolver

/-! ## The solution satisfies every constraint the updater derives from its
own evaluated guess -/

theorem updateStep_sat (s : Word) (L : ℕ) (hsL : s.length = L)
    (g : Guess) (cs : List Constraint)
    (hcs : ∀ k ∈ cs, k.is_satisfied s = true)
    (i : ℕ) (c : Char) (col : Colour)
    (hfg : col = Colour.green → s.get? i = some c)
    (hfy : col = Colour.yellow → c ∈ s ∧ s.get? i ≠ some c)
    (hfgr : col = Colour.grey → s.get? i ≠ some c ∧
      (charIsDuplicate g c = false → c ∉ s)) :
    ∀ k ∈ updateStep g L cs (i, c, col), k.is_satisfied s = true := by
  intro k hk
  cases col with
  | green =>
    simp only [updateStep, List.mem_append, List.mem_filter,
      List.mem_singleton] at hk
    rcases hk with ⟨hmem, _⟩ | hk
    · exact hcs k hmem
    · subst hk
      simp only [Constraint.is_satisfied, Finset.mem_singleton]
      rw [decide_eq_true_eq.mpr ⟨i, Finset.mem_singleton_self i, hfg rfl⟩]
  | yellow =>
    obtain ⟨hmem, hnot⟩ := hfy rfl
    simp only [updateStep, List.mem_append, List.mem_cons,
      List.mem_singleton, List.not_mem_nil, or_false] at hk
    rcases hk with hk | hk | hk
    · exact hcs k hk
    · subst hk
      simp only [Constraint.is_satisfied]
      obtain ⟨n, hn⟩ := List.mem_iff_get?.mp hmem
      have hnL : n < L := by
        have := (List.get?_eq_some.mp hn).1
        omega
      have hni : n ≠ i := by
        intro hcon
        rw [hcon] at hn
        exact hnot hn
      rw [decide_eq_true_eq.mpr
        ⟨n, Finset.mem_erase.mpr ⟨hni, Finset.mem_range.mpr hnL⟩, hn⟩]
    · subst hk
      simp only [Constraint.is_satisfied]
      have : ¬ ∃ p ∈ ({i} : Finset ℕ), s.get? p = some c := by
        rintro ⟨p, hp, hps⟩
        rw [Finset.mem_singleton] at hp
        rw [hp] at hps
        exact hnot hps
      rw [decide_eq_false this]
      rfl
  | grey =>
    obtain ⟨hnot, huniq⟩ := hfgr rfl
    by_cases hdup : charIsDuplicate g c
    · simp only [updateStep, if_pos hdup, List.mem_append,
        List.mem_singleton] at hk
      rcases hk with hk | hk
      · exact hcs k hk
      · subst hk
        simp only [Constraint.is_satisfied]
        have : ¬ ∃ p ∈ ({i} : Finset ℕ), s.get? p = some c := by
          rintro ⟨p, hp, hps⟩
          rw [Finset.mem_singleton] at hp
          rw [hp] at hps
          exact hnot hps
        rw [decide_eq_false this]
        rfl
    · simp only [updateStep, if_neg hdup, List.mem_append, List.mem_filter,
        List.mem_singleton] at hk
      rcases hk with ⟨hmem, _⟩ | hk
      · exact hcs k hmem
      · subst hk
        simp only [Constraint.is_satisfied]
        have hcnot : c ∉ s := huniq (Bool.not_eq_true _ ▸ (by simpa using hdup))
        have : ¬ ∃ p ∈ Finset.range L, s.get? p = some c := by
          rintro ⟨p, _, hps⟩
          exact hcnot (List.get?_mem hps)
        rw [decide_eq_false this]
        rfl

theorem update_constraints_sat (w s : Word) (hw : w.length = s.length)
    (L : ℕ) (hsL : s.length = L) (cs : List Constraint)
    (hcs : ∀ k ∈ cs, k.is_satisfied s = true) :
    ∀ k ∈ update_constraints cs (finalize (create_from_word w s)) L,
      k.is_satisfied s = true := by
  have hfold : ∀ (l : List (ℕ × (Char × Colour))),
      (∀ q ∈ l, (finalize (create_from_word w s)).chars.get? q.1 = some q.2) →
      ∀ (cs : List Constraint), (∀ k ∈ cs, k.is_satisfied s = true) →
      ∀ k ∈ l.foldl
          (fun cs p => updateStep (finalize (create_from_word w s)) L cs
            (p.1, p.2.1, p.2.2)) cs,
        k.is_satisfied s = true := by
    intro l
    induction l with
    | nil => intro _ cs hcs0 k hk; exact hcs0 k hk
    | cons q l ih =>
      intro hq cs hcs0
      rw [List.foldl_cons]
      refine ih (fun r hr => hq r (List.mem_cons_of_mem q hr)) _ ?_
      have hget : (finalize (create_from_word w s)).chars.get? q.1
          = some (q.2.1, q.2.2) := by
        rw [hq q (List.mem_cons_self q l)]
      have hfacts := guess_entry_facts w s hw q.1 q.2.1 q.2.2 hget
      refine updateStep_sat s L hsL (finalize (create_from_word w s)) cs hcs0
        q.1 q.2.1 q.2.2 hfacts.1 hfacts.2.1 ?_
      intro hcol
      refine ⟨(hfacts.2.2 hcol).1, ?_⟩
      intro hnd
      apply (hfacts.2.2 hcol).2
      have hlet : (finalize (create_from_word w s)).chars.map Prod.fst = w := by
        rw [finalize_letters, create_letters w s hw]
      have hcle : ((finalize (create_from_word w s)).chars.map Prod.fst).count
          q.2.1 ≤ 1 := by
        unfold charIsDuplicate at hnd
        simpa using hnd
      have hmemw : q.2.1 ∈ (finalize (create_from_word w s)).chars.map Prod.fst :=
        List.mem_map_of_mem Prod.fst (List.get?_mem hget)
      have hcge := List.count_pos_iff_mem.mpr hmemw
      rw [hlet] at hcle hcge
      omega
  intro k hk
  unfold update_constraints at hk
  refine hfold (finalize (create_from_word w s)).chars.enum ?_ cs hcs k hk
  intro q hq
  exact List.mem_enum_iff_get?.mp hq

end WordleSolver

namespace WordleSolver

/-! ## The orchestrator loop terminates in a final state -/

theorem simulateLoop_ok (words : List Word) (s : Word)
    (hwords : ∀ w ∈ words, WordOK w) (hs : s ∈ words) :
    ∀ (fuel : ℕ) (p : Puzzle) (cs : List Constraint),
      p.solution = s →
      MAX_NUM_GUESSES - p.guesses.length ≤ fuel →
      p.guesses.length ≤ MAX_NUM_GUESSES →
      (∀ k ∈ cs, k.is_satisfied s = true) →
      ∃ p', simulateLoop words fuel p cs = Except.ok p' ∧
        p'.solution = s ∧
        p'.guesses.length ≤ MAX_NUM_GUESSES ∧
        p'.is_in_progress = false := by
  intro fuel
  induction fuel with
  | zero =>
    intro p cs hsol hfuel hlen hsat
    refine ⟨p, rfl, hsol, hlen, ?_⟩
    have hlen6 : p.guesses.length = MAX_NUM_GUESSES := by omega
    unfold Puzzle.is_in_progress
    rw [hlen6]
    cases p.won <;> simp
  | succ fuel ih =>
    intro p cs hsol hfuel hlen hsat
    by_cases hip : p.is_in_progress = true
    · have hprog := (is_in_progress_iff p).mp hip
      obtain ⟨w, hw⟩ := get_word_to_guess_of_sat words cs s hs hsat
      have hwmem : w ∈ words := ((get_word_to_guess_spec words cs).1 w hw).1
      have hwok := hwords w hwmem
      have hsok := hwords s hs
      have hws : w.length = s.length := by rw [hwok.1, hsok.1]
      have henter := enter_word_ok p w hprog.2 hwok
      rw [hsol] at henter
      by_cases hcor : (finalize (create_from_word w s)).is_correct = true
      · refine ⟨⟨s, p.guesses ++ [finalize (create_from_word w s)]⟩,
          ?_, rfl, ?_, ?_⟩
        · simp only [simulateLoop, hip, if_true, hw, henter]
          rw [if_pos hcor]
        · rw [List.length_append, List.length_singleton]
          omega
        · unfold Puzzle.is_in_progress
          rw [won_concat, hcor]
          simp
      · have hup := update_constraints_sat w s hws WORD_LENGTH hsok.1 cs hsat
        obtain ⟨p', hp1, hp2, hp3, hp4⟩ :=
          ih ⟨s, p.guesses ++ [finalize (create_from_word w s)]⟩
            (update_constraints cs (finalize (create_from_word w s)) WORD_LENGTH)
            rfl
            (by rw [List.length_append, List.length_singleton]; omega)
            (by rw [List.length_append, List.length_singleton]; omega)
            hup
        refine ⟨p', ?_, hp2, hp3, hp4⟩
        simp only [simulateLoop, hip, if_true, hw, henter]
        rw [if_neg hcor]
        exact hp1
    · refine ⟨p, ?_, hsol, hlen, Bool.eq_false_iff.mpr hip⟩
      simp only [simulateLoop]
      rw [if_neg hip]

/-- Claim C7: starting from an empty constraint set and empty guess history
with a solution drawn from a well-formed corpus, a full run terminates
normally after at most `MAX_NUM_GUESSES` rounds (never hitting the
no-candidates or invalid-word errors), ends not-in-progress — Won, or Lost
with exactly `MAX_NUM_GUESSES` guesses used — and is Won precisely when the
last guess is all green. -/
theorem simulate_terminates (words : List Word) (s : Word)
    (hwords : ∀ w ∈ words, WordOK w) (hs : s ∈ words) :
    ∃ p, simulate words s = Except.ok p ∧
      p.guesses.length ≤ MAX_NUM_GUESSES ∧
      p.is_in_progress = false ∧
      (p.won = true ∨ (p.won = false ∧ p.guesses.length = MAX_NUM_GUESSES)) ∧
      (p.won = true ↔ ∃ g, p.guesses.getLast? = some g ∧ g.is_correct = true) := by
  obtain ⟨p', h1, h2, h3, h4⟩ := simulateLoop_ok words s hwords hs
    MAX_NUM_GUESSES ⟨s, []⟩ [] rfl (by simp) (by simp) (by simp)
  refine ⟨p', h1, h3, h4, ?_, ?_⟩
  · cases hwon : p'.won with
    | true => exact Or.inl rfl
    | false =>
      refine Or.inr ⟨rfl, ?_⟩
      have h4' := h4
      unfold Puzzle.is_in_progress at h4'
      rw [hwon] at h4'
      simp at h4'
      omega
  · unfold Puzzle.won
    cases hl : p'.guesses.getLast? with
    | none => simp
    | some g => simp

/-- Witness for C7: on the singleton corpus ["later"] with solution "later",
the run terminates as the loop theorem states. -/
theorem simulate_terminates_witness :
    ∃ p, simulate ["later".toList] "later".toList = Except.ok p ∧
      p.guesses.length ≤ MAX_NUM_GUESSES ∧
      p.is_in_progress = false ∧
      (p.won = true ∨ (p.won = false ∧ p.guesses.length = MAX_NUM_GUESSES)) ∧
      (p.won = true ↔ ∃ g, p.guesses.getLast? = some g ∧ g.is_correct = true) :=
  simulate_terminates ["later".toList] "later".toList (by decide) (by decide)

end WordleSolver
